import Mathlib

/-!
Verification of the bloom-filter core of the RustPlayground repository.

The development shallowly embeds the two Rust implementations:

* the current bit-vector implementation in src/bloom-filter/src/lib.rs
  (structure BloomFilter and its operations build, hash, add, is_present);
* the historical byte-array implementation in src/src/lib.rs
  (namespace Legacy).

Modelling conventions:

* Machine integers (u32, usize, u8) are Nat values; every operation that can
  overflow in Rust is modelled explicitly.  The repository is exercised with
  cargo test, i.e. with debug-mode overflow checks, so checked arithmetic that
  overflows is modelled as a panic, while the shifts in hash, which silently
  discard high bits in Rust in every build mode, are reduced mod 2 ^ 64.
  Casts with the as operator truncate in every build mode and are modelled
  as reduction mod 2 ^ 32.
* Rust panics (overflow of checked arithmetic, out-of-bounds slice indexing,
  BitVec::set out of range, Option::expect on None, division by zero) are
  modelled with Option (none) or with the dedicated BuildResult.panic
  constructor where the function otherwise returns a Result.
* The SHA-512 digest comes from the external sha2 crate, which is not part of
  this repository.  It is a deterministic function from keys to 64-byte
  digests, so a key is represented throughout by its digest, a List Nat of
  length 64; quantifying over digests covers every key.
-/

/-- Outcome of BloomFilter::build: the Rust function returns a Result, but in
debug mode it can also panic on arithmetic overflow; panic models that. -/
inductive BuildResult (α : Type) where
  | panic : BuildResult α
  | err : String → BuildResult α
  | ok : α → BuildResult α
deriving DecidableEq

/-- The two-valued answer of is_present, from the enum BloomCheckResult. -/
inductive BloomCheckResult where
  | No : BloomCheckResult
  | Maybe : BloomCheckResult
deriving DecidableEq

/-- The error message of the capacity check in both implementations. -/
def capacityMsg : String := "The bloom filter is too large for the underlying hashers"

/-- Range of u32 values. -/
def U32_MOD : Nat := 2 ^ 32

/-- Range of usize values (64-bit target). -/
def USIZE_MOD : Nat := 2 ^ 64

/-- The struct BloomFilter of src/bloom-filter/src/lib.rs: a bit vector, the
number of hashers (usize) and the number of bits per hash value (u32). -/
structure BloomFilter where
  bits : List Bool
  hasher_count : Nat
  hasher_range_in_bits : Nat
deriving DecidableEq

/-- The constant FULL_HASH_BYTES (the digest length in bits, despite the
name) from src/bloom-filter/src/lib.rs. -/
def FULL_HASH_BYTES : Nat := 512

/-- BloomFilter::build.  The capacity check multiplies hasher_range_in_bits
by hasher_count cast to u32 (the cast truncates mod 2 ^ 32); the u32
multiplication panics on overflow in debug mode.  On success the bit vector
has 2_usize.pow(hasher_range_in_bits) entries, all false; that pow panics in
debug mode when the result does not fit in usize. -/
def BloomFilter.build (hasher_range_in_bits : Nat) (hasher_count : Nat) : BuildResult BloomFilter :=
  if U32_MOD ≤ hasher_range_in_bits * (hasher_count % U32_MOD) then .panic
  else if FULL_HASH_BYTES < hasher_range_in_bits * (hasher_count % U32_MOD) then .err capacityMsg
  else if USIZE_MOD ≤ 2 ^ hasher_range_in_bits then .panic
  else .ok (BloomFilter.mk (List.replicate (2 ^ hasher_range_in_bits) false) hasher_count hasher_range_in_bits)

/-- One step of the inner loop of BloomFilter::hash: read digest bit number
full_hash_ptr.  The byte is full_hash[full_hash.len() - byte_index - 1] (an
out-of-range byte_index makes the Rust indexing panic, modelled by none) and
the bit inside the byte is selected LSB-first with the mask
2_u8.pow(bit_in_byte). -/
def hashBitRead (full_hash : List Nat) (full_hash_ptr : Nat) : Option Bool :=
  let byte_index := full_hash_ptr / 8
  let bit_in_byte := full_hash_ptr % 8
  let bit_mask := 2 ^ bit_in_byte
  if byte_index < full_hash.length then
    some (decide (full_hash.getD (full_hash.length - byte_index - 1) 0 &&& bit_mask ≠ 0))
  else none

/-- The inner loop of BloomFilter::hash: consume hasher_range_in_bits digest
bits (first argument is the remaining count), folding each into hasher_value
with hasher_value = (hasher_value << 1) + bit; the usize shift discards high
bits, hence the reduction mod 2 ^ 64.  Returns the slot value together with
the advanced cursor. -/
def hashSlotAux (full_hash : List Nat) : Nat → Nat → Nat → Option (Nat × Nat)
  | 0, full_hash_ptr, hasher_value => some (hasher_value, full_hash_ptr)
  | n + 1, full_hash_ptr, hasher_value =>
    match hashBitRead full_hash full_hash_ptr with
    | some b => hashSlotAux full_hash n (full_hash_ptr + 1)
        ((hasher_value * 2 + (if b then 1 else 0)) % USIZE_MOD)
    | none => none

/-- The outer loop of BloomFilter::hash: one slot value per hasher (first
argument is the number of hashers still to fill), each slot starting at the
cursor position where the previous slot stopped. -/
def hashSlots (full_hash : List Nat) (hasher_range_in_bits : Nat) : Nat → Nat → Option (List Nat)
  | 0, _ => some []
  | n + 1, full_hash_ptr =>
    match hashSlotAux full_hash hasher_range_in_bits full_hash_ptr 0 with
    | some (hasher_value, ptr) =>
      match hashSlots full_hash hasher_range_in_bits n ptr with
      | some rest => some (hasher_value :: rest)
      | none => none
    | none => none

/-- BloomFilter::hash: the hasher_count slot positions derived from the
64-byte digest of the key. -/
def BloomFilter.hash (f : BloomFilter) (full_hash : List Nat) : Option (List Nat) :=
  hashSlots full_hash f.hasher_range_in_bits f.hasher_count 0

/-- The loop of BloomFilter::add: set each index of t_hash to true in the bit
vector; BitVec::set panics when the index is out of bounds. -/
def setBits (bits : List Bool) : List Nat → Option (List Bool)
  | [] => some bits
  | i :: rest => if i < bits.length then setBits (bits.set i true) rest else none

/-- BloomFilter::add. -/
def BloomFilter.add (f : BloomFilter) (full_hash : List Nat) : Option BloomFilter :=
  match f.hash full_hash with
  | some t_hash =>
    match setBits f.bits t_hash with
    | some bits => some (BloomFilter.mk bits f.hasher_count f.hasher_range_in_bits)
    | none => none
  | none => none

/-- The loop of BloomFilter::is_present: for each index, bits.get(i) first
goes through expect (none models the panic on an out-of-bounds index), then a
false bit short-circuits to No; if every bit is true the answer is Maybe. -/
def checkBits (bits : List Bool) : List Nat → Option BloomCheckResult
  | [] => some BloomCheckResult.Maybe
  | i :: rest =>
    match bits.get? i with
    | some b => if b then checkBits bits rest else some BloomCheckResult.No
    | none => none

/-- BloomFilter::is_present. -/
def BloomFilter.is_present (f : BloomFilter) (full_hash : List Nat) : Option BloomCheckResult :=
  match f.hash full_hash with
  | some t_hash => checkBits f.bits t_hash
  | none => none

/-- Repeated insertion, used to state claims that quantify over the keys
added before or after a distinguished add. -/
def BloomFilter.addAll (f : BloomFilter) : List (List Nat) → Option BloomFilter
  | [] => some f
  | d :: ds =>
    match f.add d with
    | some f1 => f1.addAll ds
    | none => none

/-- Transcribed from the spec, section 4.2: the digest bit under the cursor
position t, scanning from the least-significant bit of the last byte toward
the most-significant bit of the first byte.  Logical bit t lives in physical
bit t mod 8 (LSB first) of byte length - t / 8 - 1 (last byte first).  This
definition follows the words of the spec; the source-level hash is proved to
agree with it. -/
def specDigestBit (digest : List Nat) (t : Nat) : Bool :=
  Nat.testBit (digest.getD (digest.length - t / 8 - 1) 0) (t % 8)

/-- Transcribed from the spec, section 4.2: slot number slot consumes the
index_bits consecutive digest bits starting at cursor slot * index_bits,
accumulating them by shifting the accumulator left by one and OR-ing in each
newly read bit. -/
def specSlotValue (digest : List Nat) (index_bits slot : Nat) : Nat :=
  (List.range index_bits).foldl
    (fun acc j => acc * 2 + (if specDigestBit digest (slot * index_bits + j) then 1 else 0)) 0

/-- An observable operation on a filter: an insertion or a membership query,
each carrying the digest of its key.  Used to state the temporal claim about
arbitrary operation sequences. -/
inductive FilterOp where
  | add : List Nat → FilterOp
  | query : List Nat → FilterOp

/-- Effect of one operation on the filter state: add mutates it through
BloomFilter::add, is_present takes the filter by shared reference and leaves
the state unchanged (none models a panic of the operation). -/
def runOp (f : BloomFilter) : FilterOp → Option BloomFilter
  | FilterOp.add d => f.add d
  | FilterOp.query d =>
    match f.is_present d with
    | some _ => some f
    | none => none

/-- Effect of a sequence of operations. -/
def runOps (f : BloomFilter) : List FilterOp → Option BloomFilter
  | [] => some f
  | op :: rest =>
    match runOp f op with
    | some f1 => runOps f1 rest
    | none => none

namespace Legacy

/-- The struct BloomFilter of the historical variant src/src/lib.rs: a byte
array, the number of hashers (u8) and the byte count (usize). -/
structure BloomFilter where
  bytes : List Nat
  hasher_count : Nat
  byte_count : Nat
deriving DecidableEq

/-- The constant MAX_BYTES of src/src/lib.rs. -/
def MAX_BYTES : Nat := 64

/-- Legacy BloomFilter::build: rejects byte_count > MAX_BYTES / hasher_count;
the usize division panics when hasher_count is zero.  On success the byte
array has byte_count zero bytes. -/
def BloomFilter.build (byte_count : Nat) (hasher_count : Nat) : BuildResult BloomFilter :=
  if hasher_count = 0 then .panic
  else if MAX_BYTES / hasher_count < byte_count then .err capacityMsg
  else .ok (BloomFilter.mk (List.replicate byte_count 0) hasher_count byte_count)

/-- The inner loop of the legacy BloomFilter::hash (one pass over the
byte_count bytes of computed_hash; the first argument is the remaining
iteration count, byte_index the current position).  Each step overwrites
computed_hash[byte_index] with
computed_hash[byte_count - byte_index - 1] | full_hash[full_hash.len() - full_hash_index - 1],
reading the mirrored position of the partially updated array (the
self-referential fold of the source).  An out-of-range full_hash_index makes
the Rust digest indexing panic, modelled by none. -/
def hashInner (full_hash : List Nat) (byte_count : Nat) :
    Nat → Nat → List Nat → Nat → Option (List Nat × Nat)
  | 0, _, computed, full_hash_index => some (computed, full_hash_index)
  | n + 1, byte_index, computed, full_hash_index =>
    if full_hash_index < full_hash.length then
      hashInner full_hash byte_count n (byte_index + 1)
        (computed.set byte_index
          (computed.getD (byte_count - byte_index - 1) 0 |||
            full_hash.getD (full_hash.length - full_hash_index - 1) 0))
        (full_hash_index + 1)
    else none

/-- The outer loop of the legacy BloomFilter::hash: one inner pass per
hasher, the digest cursor full_hash_index running on across passes. -/
def hashOuter (full_hash : List Nat) (byte_count : Nat) :
    Nat → List Nat → Nat → Option (List Nat)
  | 0, computed, _ => some computed
  | n + 1, computed, full_hash_index =>
    match hashInner full_hash byte_count byte_count 0 computed full_hash_index with
    | some (computed1, fhi1) => hashOuter full_hash byte_count n computed1 fhi1
    | none => none

/-- Legacy BloomFilter::hash: starts from vec![0; byte_count] and runs
hasher_count passes of the folding loop. -/
def BloomFilter.hash (f : BloomFilter) (full_hash : List Nat) : Option (List Nat) :=
  hashOuter full_hash f.byte_count f.hasher_count (List.replicate f.byte_count 0) 0

/-- The loop of the legacy BloomFilter::add: bytes[i] = bytes[i] | t_hash[i]
for i in 0..t_hash.len(); indexing bytes out of range panics. -/
def orInto : List Nat → List Nat → Nat → Option (List Nat)
  | bytes, [], _ => some bytes
  | bytes, h :: rest, i =>
    if i < bytes.length then orInto (bytes.set i (bytes.getD i 0 ||| h)) rest (i + 1)
    else none

/-- Legacy BloomFilter::add. -/
def BloomFilter.add (f : BloomFilter) (full_hash : List Nat) : Option BloomFilter :=
  match f.hash full_hash with
  | some t_hash =>
    match orInto f.bytes t_hash 0 with
    | some bytes => some (BloomFilter.mk bytes f.hasher_count f.byte_count)
    | none => none
  | none => none

/-- The loop of the legacy BloomFilter::is_present: answer No as soon as
bytes[i] & t_hash[i] != t_hash[i], Maybe when every hash byte is contained
in the state byte. -/
def containsCheck : List Nat → List Nat → Nat → Option BloomCheckResult
  | _, [], _ => some BloomCheckResult.Maybe
  | bytes, h :: rest, i =>
    if i < bytes.length then
      if bytes.getD i 0 &&& h ≠ h then some BloomCheckResult.No
      else containsCheck bytes rest (i + 1)
    else none

/-- Legacy BloomFilter::is_present. -/
def BloomFilter.is_present (f : BloomFilter) (full_hash : List Nat) : Option BloomCheckResult :=
  match f.hash full_hash with
  | some t_hash => containsCheck f.bytes t_hash 0
  | none => none

/-- Repeated insertion for the legacy variant. -/
def BloomFilter.addAll (f : BloomFilter) : List (List Nat) → Option BloomFilter
  | [] => some f
  | d :: ds =>
    match f.add d with
    | some f1 => f1.addAll ds
    | none => none

end Legacy

/-! ### Basic list helpers -/

theorem getD_set_self {α : Type} (l : List α) (i : Nat) (v d : α) (h : i < l.length) :
    (l.set i v).getD i d = v := by
  rw [List.getD_eq_getElem?_getD, List.getElem?_set_self h]
  rfl

theorem getD_set_mono (l : List Bool) (i j : Nat)
    (h : l.getD j false = true) : (l.set i true).getD j false = true := by
  rw [List.getD_eq_getElem?_getD] at h ⊢
  rw [List.getElem?_set]
  by_cases hij : i = j
  · subst hij
    by_cases hlen : i < l.length
    · simp [hlen]
    · rw [List.getElem?_eq_none (by omega)] at h
      simp at h
  · simp [hij, h]
  
theorem set_true_noop (l : List Bool) (i : Nat) (h : l.getD i false = true) :
    l.set i true = l := by
  apply List.ext_getElem?
  intro n
  rw [List.getElem?_set]
  by_cases hin : i = n
  · subst hin
    by_cases hlen : i < l.length
    · simp only [hlen, if_true]
      rw [List.getD_eq_getElem?_getD] at h
      rcases hget : l[i]? with _ | b
      · rw [hget] at h; simp at h
      · rw [hget] at h; simp at h; simp [hget, h]
    · rw [List.getD_eq_getElem?_getD, List.getElem?_eq_none (by omega)] at h
      simp at h
  · simp [hin]

/-! ### setBits helpers (the loop of BloomFilter::add) -/

theorem setBits_length (t_hash : List Nat) (bits bits2 : List Bool)
    (h : setBits bits t_hash = some bits2) : bits2.length = bits.length := by
  induction t_hash generalizing bits with
  | nil => simp only [setBits, Option.some_inj] at h; rw [h]
  | cons i rest ih =>
    simp only [setBits] at h
    split at h
    · have := ih (bits.set i true) h
      simpa [List.length_set] using this
    · exact absurd h (by simp)

theorem setBits_inbounds (t_hash : List Nat) (bits bits2 : List Bool)
    (h : setBits bits t_hash = some bits2) : ∀ i ∈ t_hash, i < bits.length := by
  induction t_hash generalizing bits with
  | nil => intro i hi; simp at hi
  | cons i rest ih =>
    simp only [setBits] at h
    split at h
    · intro j hj
      rcases List.mem_cons.mp hj with rfl | hj
      · assumption
      · have := ih (bits.set i true) h j hj
        simpa [List.length_set] using this
    · exact absurd h (by simp)

theorem setBits_mono (t_hash : List Nat) (bits bits2 : List Bool)
    (h : setBits bits t_hash = some bits2) :
    ∀ j, bits.getD j false = true → bits2.getD j false = true := by
  induction t_hash generalizing bits with
  | nil => intro j hj; simp only [setBits] at h; cases h; exact hj
  | cons i rest ih =>
    simp only [setBits] at h
    split at h
    · intro j hj
      exact ih (bits.set i true) h j (getD_set_mono bits i j hj)
    · exact absurd h (by simp)

theorem setBits_sets (t_hash : List Nat) (bits bits2 : List Bool)
    (h : setBits bits t_hash = some bits2) :
    ∀ i ∈ t_hash, bits2.getD i false = true := by
  induction t_hash generalizing bits with
  | nil => intro i hi; simp at hi
  | cons i rest ih =>
    simp only [setBits] at h
    split at h
    · intro j hj
      rcases List.mem_cons.mp hj with rfl | hj
      · exact setBits_mono rest (bits.set j true) bits2 h j
          (getD_set_self bits j true false (by assumption))
      · exact ih (bits.set i true) h j hj
    · exact absurd h (by simp)

theorem setBits_isSome (t_hash : List Nat) (bits : List Bool)
    (h : ∀ i ∈ t_hash, i < bits.length) : (setBits bits t_hash).isSome := by
  induction t_hash generalizing bits with
  | nil => simp [setBits]
  | cons i rest ih =>
    have hi : i < bits.length := h i (List.mem_cons_self i rest)
    simp only [setBits, hi, if_true]
    exact ih (bits.set i true) (by
      intro j hj
      have := h j (List.mem_cons_of_mem i hj)
      simpa [List.length_set] using this)

theorem setBits_id (t_hash : List Nat) (bits : List Bool)
    (hset : ∀ i ∈ t_hash, bits.getD i false = true) :
    (∀ i ∈ t_hash, i < bits.length) → setBits bits t_hash = some bits := by
  induction t_hash generalizing bits with
  | nil => intro; rfl
  | cons i rest ih =>
    intro hlen
    have hi : i < bits.length := hlen i (List.mem_cons_self i rest)
    simp only [setBits, hi, if_true]
    rw [set_true_noop bits i (hset i (List.mem_cons_self i rest))]
    exact ih bits (fun j hj => hset j (List.mem_cons_of_mem i hj))
      (fun j hj => hlen j (List.mem_cons_of_mem i hj))

/-! ### checkBits helpers (the loop of BloomFilter::is_present) -/

theorem checkBits_spec (t_hash : List Nat) (bits : List Bool)
    (h : ∀ i ∈ t_hash, i < bits.length) :
    checkBits bits t_hash =
      some (if t_hash.all (fun i => bits.getD i false) then BloomCheckResult.Maybe
            else BloomCheckResult.No) := by
  induction t_hash with
  | nil => rfl
  | cons i rest ih =>
    have hi : i < bits.length := h i (List.mem_cons_self i rest)
    have hget : bits.get? i = some (bits.getD i false) := by
      rw [List.get?_eq_getElem?, List.getElem?_eq_getElem hi, List.getD_eq_getElem?_getD,
        List.getElem?_eq_getElem hi]
      rfl
    simp only [checkBits, hget]
    rcases hb : bits.getD i false with _ | _
    · rw [List.getD_eq_getElem?_getD] at hb
      simp [List.all_cons, hb]
    · simp only [if_true, List.all_cons, hb, Bool.true_and]
      exact ih (fun j hj => h j (List.mem_cons_of_mem i hj))

theorem checkBits_maybe (t_hash : List Nat) (bits : List Bool)
    (hlen : ∀ i ∈ t_hash, i < bits.length)
    (htrue : ∀ i ∈ t_hash, bits.getD i false = true) :
    checkBits bits t_hash = some BloomCheckResult.Maybe := by
  rw [checkBits_spec t_hash bits hlen]
  have : t_hash.all (fun i => bits.getD i false) = true := by
    rw [List.all_eq_true]
    intro i hi
    exact htrue i hi
  rw [this]
  simp

theorem checkBits_isSome (t_hash : List Nat) (bits : List Bool)
    (hlen : ∀ i ∈ t_hash, i < bits.length) : (checkBits bits t_hash).isSome := by
  rw [checkBits_spec t_hash bits hlen]
  rfl

/-! ### Inversion and preservation lemmas for build, add, addAll -/

theorem build_ok_inv (hr hc : Nat) (f : BloomFilter)
    (h : BloomFilter.build hr hc = BuildResult.ok f) :
    f.bits = List.replicate (2 ^ hr) false ∧ f.hasher_count = hc ∧
      f.hasher_range_in_bits = hr ∧ hr * (hc % U32_MOD) ≤ FULL_HASH_BYTES ∧ hr < 64 := by
  unfold BloomFilter.build at h
  split at h
  · exact absurd h (by simp)
  · split at h
    · exact absurd h (by simp)
    · split at h
      · exact absurd h (by simp)
      · have hpow : 2 ^ hr < USIZE_MOD := by omega
        have hr64 : hr < 64 := by
          by_contra hge
          have : (2 : Nat) ^ 64 ≤ 2 ^ hr := Nat.pow_le_pow_right (by omega) (by omega)
          have : USIZE_MOD ≤ 2 ^ hr := this
          omega
        simp only [BuildResult.ok.injEq] at h
        rw [← h]
        refine ⟨rfl, rfl, rfl, by omega, hr64⟩

theorem build_ok_bits_length (hr hc : Nat) (f : BloomFilter)
    (h : BloomFilter.build hr hc = BuildResult.ok f) :
    f.bits.length = 2 ^ f.hasher_range_in_bits := by
  obtain ⟨hbits, -, hhr, -, -⟩ := build_ok_inv hr hc f h
  rw [hbits, hhr, List.length_replicate]

theorem add_inv (f f2 : BloomFilter) (d : List Nat)
    (h : f.add d = some f2) :
    ∃ t_hash, f.hash d = some t_hash ∧ setBits f.bits t_hash = some f2.bits ∧
      f2.hasher_count = f.hasher_count ∧ f2.hasher_range_in_bits = f.hasher_range_in_bits := by
  unfold BloomFilter.add at h
  split at h
  next t_hash hh =>
    split at h
    next bits2 hs =>
      simp only [Option.some_inj] at h
      refine ⟨t_hash, hh, ?_, ?_, ?_⟩
      · rw [← h]; exact hs
      · rw [← h]
      · rw [← h]
    next => exact absurd h (by simp)
  next => exact absurd h (by simp)

theorem add_params (f f2 : BloomFilter) (d : List Nat) (h : f.add d = some f2) :
    f2.hasher_count = f.hasher_count ∧ f2.hasher_range_in_bits = f.hasher_range_in_bits ∧
      f2.bits.length = f.bits.length := by
  obtain ⟨t, -, hs, hc, hr⟩ := add_inv f f2 d h
  exact ⟨hc, hr, setBits_length t f.bits f2.bits hs⟩

theorem add_mono (f f2 : BloomFilter) (d : List Nat) (h : f.add d = some f2) :
    ∀ j, f.bits.getD j false = true → f2.bits.getD j false = true := by
  obtain ⟨t, -, hs, -, -⟩ := add_inv f f2 d h
  exact setBits_mono t f.bits f2.bits hs

theorem hash_congr (f f2 : BloomFilter) (d : List Nat)
    (hc : f2.hasher_count = f.hasher_count)
    (hr : f2.hasher_range_in_bits = f.hasher_range_in_bits) :
    f2.hash d = f.hash d := by
  unfold BloomFilter.hash
  rw [hc, hr]

theorem addAll_params (ds : List (List Nat)) (f f2 : BloomFilter)
    (h : f.addAll ds = some f2) :
    f2.hasher_count = f.hasher_count ∧ f2.hasher_range_in_bits = f.hasher_range_in_bits ∧
      f2.bits.length = f.bits.length := by
  induction ds generalizing f with
  | nil => simp only [BloomFilter.addAll, Option.some_inj] at h; rw [h]; exact ⟨rfl, rfl, rfl⟩
  | cons d ds ih =>
    simp only [BloomFilter.addAll] at h
    rcases ha : f.add d with _ | f1
    · rw [ha] at h; exact absurd h (by simp)
    · rw [ha] at h
      obtain ⟨h1, h2, h3⟩ := ih f1 h
      obtain ⟨g1, g2, g3⟩ := add_params f f1 d ha
      exact ⟨by omega, by omega, by omega⟩

theorem addAll_mono (ds : List (List Nat)) (f f2 : BloomFilter)
    (h : f.addAll ds = some f2) :
    ∀ j, f.bits.getD j false = true → f2.bits.getD j false = true := by
  induction ds generalizing f with
  | nil => simp only [BloomFilter.addAll, Option.some_inj] at h; rw [h]; exact fun _ hj => hj
  | cons d ds ih =>
    simp only [BloomFilter.addAll] at h
    rcases ha : f.add d with _ | f1
    · rw [ha] at h; exact absurd h (by simp)
    · rw [ha] at h
      intro j hj
      exact ih f1 h j (add_mono f f1 d ha j hj)

/-! ### Correspondence with the bit-derivation contract of spec section 4.2 -/

theorem decide_and_two_pow (x k : Nat) : decide (x &&& 2 ^ k ≠ 0) = x.testBit k := by
  rw [Nat.and_two_pow]
  rcases h : x.testBit k with _ | _
  · simp
  · simp [(Nat.two_pow_pos k).ne.symm]

theorem hashBitRead_spec (fh : List Nat) (t : Nat) (b : Bool)
    (h : hashBitRead fh t = some b) : b = specDigestBit fh t := by
  unfold hashBitRead at h
  dsimp only at h
  split at h
  · simp only [Option.some_inj] at h
    rw [← h, specDigestBit, decide_and_two_pow]
  · exact absurd h (by simp)

theorem hashSlotAux_ptr (fh : List Nat) (n : Nat) :
    ∀ ptr acc v p, hashSlotAux fh n ptr acc = some (v, p) → p = ptr + n := by
  induction n with
  | zero =>
    intro ptr acc v p h
    simp only [hashSlotAux, Option.some_inj, Prod.mk.injEq] at h
    omega
  | succ n ih =>
    intro ptr acc v p h
    simp only [hashSlotAux] at h
    split at h
    · have := ih (ptr + 1) _ v p h
      omega
    · exact absurd h (by simp)

theorem hashSlotAux_lt (fh : List Nat) (n : Nat) :
    ∀ ptr acc m v p, hashSlotAux fh n ptr acc = some (v, p) → acc < 2 ^ m → m + n ≤ 64 →
      v < 2 ^ (m + n) := by
  induction n with
  | zero =>
    intro ptr acc m v p h hacc hmn
    simp only [hashSlotAux, Option.some_inj, Prod.mk.injEq] at h
    rw [Nat.add_zero]
    omega
  | succ n ih =>
    intro ptr acc m v p h hacc hmn
    simp only [hashSlotAux] at h
    split at h
    next b hb =>
      have hstep : (acc * 2 + (if b then 1 else 0)) % USIZE_MOD < 2 ^ (m + 1) := by
        have h1 : acc * 2 + (if b then 1 else 0) < 2 ^ (m + 1) := by
          have : (if b then 1 else 0) ≤ 1 := by split <;> omega
          have hp : 2 ^ (m + 1) = 2 ^ m * 2 := by rw [Nat.pow_succ]
          omega
        have h2 : (2 : Nat) ^ (m + 1) ≤ 2 ^ 64 := Nat.pow_le_pow_right (by omega) (by omega)
        have h3 : acc * 2 + (if b then 1 else 0) < USIZE_MOD := by
          unfold USIZE_MOD; omega
        rw [Nat.mod_eq_of_lt h3]
        exact h1
      have := ih (ptr + 1) _ (m + 1) v p h hstep (by omega)
      have hrw : m + 1 + n = m + (n + 1) := by omega
      rw [hrw] at this
      exact this
    next => exact absurd h (by simp)

theorem hashSlotAux_spec (fh : List Nat) (n : Nat) :
    ∀ ptr acc m v p, hashSlotAux fh n ptr acc = some (v, p) → acc < 2 ^ m → m + n ≤ 64 →
      v = (List.range n).foldl
        (fun a j => a * 2 + (if specDigestBit fh (ptr + j) then 1 else 0)) acc := by
  induction n with
  | zero =>
    intro ptr acc m v p h hacc hmn
    simp only [hashSlotAux, Option.some_inj, Prod.mk.injEq] at h
    simp [← h.1]
  | succ n ih =>
    intro ptr acc m v p h hacc hmn
    simp only [hashSlotAux] at h
    split at h
    next b hb =>
      have hbit : b = specDigestBit fh ptr := hashBitRead_spec fh ptr b hb
      have hnomod : (acc * 2 + (if b then 1 else 0)) % USIZE_MOD
          = acc * 2 + (if b then 1 else 0) := by
        have : (if b then 1 else 0) ≤ 1 := by split <;> omega
        have hp : 2 ^ (m + 1) = 2 ^ m * 2 := by rw [Nat.pow_succ]
        have h2 : (2 : Nat) ^ (m + 1) ≤ 2 ^ 64 := Nat.pow_le_pow_right (by omega) (by omega)
        have h3 : acc * 2 + (if b then 1 else 0) < USIZE_MOD := by
          unfold USIZE_MOD; omega
        exact Nat.mod_eq_of_lt h3
      rw [hnomod] at h
      have hacc1 : acc * 2 + (if b then 1 else 0) < 2 ^ (m + 1) := by
        have : (if b then 1 else 0) ≤ 1 := by split <;> omega
        have hp : 2 ^ (m + 1) = 2 ^ m * 2 := by rw [Nat.pow_succ]
        omega
      have hv := ih (ptr + 1) _ (m + 1) v p h hacc1 (by omega)
      rw [List.range_succ_eq_map, List.foldl_cons, List.foldl_map]
      have hfun : (fun (a j : Nat) => a * 2 + (if specDigestBit fh (ptr + 1 + j) then 1 else 0))
          = (fun (a j : Nat) => a * 2 + (if specDigestBit fh (ptr + Nat.succ j) then 1 else 0)) := by
        funext a j
        have harg : ptr + 1 + j = ptr + Nat.succ j := by omega
        rw [harg]
      rw [hfun] at hv
      rw [hv, hbit]
      simp only [Nat.add_zero]
    next => exact absurd h (by simp)

theorem hashSlots_inv (fh : List Nat) (ib : Nat) (n : Nat) :
    ∀ ptr l, hashSlots fh ib n ptr = some l →
      l.length = n ∧ ∀ i, i < n → ∃ p, hashSlotAux fh ib (ptr + i * ib) 0 = some (l.getD i 0, p) := by
  induction n with
  | zero =>
    intro ptr l h
    simp only [hashSlots, Option.some_inj] at h
    refine ⟨by rw [← h]; rfl, fun i hi => absurd hi (by omega)⟩
  | succ n ih =>
    intro ptr l h
    simp only [hashSlots] at h
    split at h
    next v ptr1 hslot =>
      split at h
      next rest hrest =>
        simp only [Option.some_inj] at h
        have hp1 : ptr1 = ptr + ib := hashSlotAux_ptr fh ib ptr 0 v ptr1 hslot
        obtain ⟨hlen, hall⟩ := ih ptr1 rest hrest
        constructor
        · rw [← h, List.length_cons, hlen]
        · intro i hi
          cases i with
          | zero =>
            refine ⟨ptr1, ?_⟩
            rw [← h]
            simpa using hslot
          | succ j =>
            have hj := hall j (by omega)
            obtain ⟨p, hp⟩ := hj
            refine ⟨p, ?_⟩
            have harg : ptr + (j + 1) * ib = ptr1 + j * ib := by
              rw [hp1, Nat.succ_mul]; omega
            rw [harg, ← h]
            simpa using hp
      next => exact absurd h (by simp)
    next => exact absurd h (by simp)

theorem hashSlots_mem_lt (fh : List Nat) (ib n : Nat) (hib : ib ≤ 64) :
    ∀ ptr l, hashSlots fh ib n ptr = some l → ∀ v ∈ l, v < 2 ^ ib := by
  induction n with
  | zero =>
    intro ptr l h v hv
    simp only [hashSlots, Option.some_inj] at h
    rw [← h] at hv
    simp at hv
  | succ n ih =>
    intro ptr l h v hv
    simp only [hashSlots] at h
    split at h
    next w ptr1 hslot =>
      split at h
      next rest hrest =>
        simp only [Option.some_inj] at h
        rw [← h] at hv
        rcases List.mem_cons.mp hv with rfl | hv
        · have := hashSlotAux_lt fh ib ptr 0 0 v ptr1 hslot (by omega) (by omega)
          simpa using this
        · exact ih ptr1 rest hrest v hv
      next => exact absurd h (by simp)
    next => exact absurd h (by simp)

theorem getD_set_ne {α : Type} (l : List α) (i j : Nat) (v d : α) (h : i ≠ j) :
    (l.set i v).getD j d = l.getD j d := by
  rw [List.getD_eq_getElem?_getD, List.getD_eq_getElem?_getD, List.getElem?_set_ne h]

/-! ### Claim theorems for the bit-vector implementation -/

/-- Claim C1: no false negatives.  For every validly constructed filter and
every key (represented by its 64-byte digest d), after adding the key, a
membership query for it answers MAYBE_PRESENT, whatever other keys were
added before or after that insertion. -/
theorem claim1_no_false_negatives (hr hcnt : Nat) (f0 f1 f2 f3 : BloomFilter)
    (d : List Nat) (pre post : List (List Nat))
    (hbuild : BloomFilter.build hr hcnt = BuildResult.ok f0)
    (hpre : f0.addAll pre = some f1)
    (hadd : f1.add d = some f2)
    (hpost : f2.addAll post = some f3) :
    f3.is_present d = some BloomCheckResult.Maybe := by
  obtain ⟨t_hash, hh1, hs, hcc, hrr⟩ := add_inv f1 f2 d hadd
  obtain ⟨pc, pr, plen⟩ := addAll_params post f2 f3 hpost
  have hhash3 : f3.hash d = some t_hash := by
    rw [hash_congr f1 f3 d (by omega) (by omega), hh1]
  have hlen12 : f2.bits.length = f1.bits.length := setBits_length t_hash f1.bits f2.bits hs
  have hmem : ∀ i ∈ t_hash, i < f3.bits.length := by
    intro i hi
    have := setBits_inbounds t_hash f1.bits f2.bits hs i hi
    omega
  have htrue : ∀ i ∈ t_hash, f3.bits.getD i false = true := by
    intro i hi
    exact addAll_mono post f2 f3 hpost i (setBits_sets t_hash f1.bits f2.bits hs i hi)
  unfold BloomFilter.is_present
  rw [hhash3]
  exact checkBits_maybe t_hash f3.bits hmem htrue

/-- Claim C2: hash derivation order.  For a validly constructed filter, a
completed hash of a 512-bit digest yields exactly hasher_count indices, and
slot i equals the integer obtained by consuming the run of index_bits
consecutive digest bits starting where slot i-1 stopped (cursor traversal:
last byte first, LSB of each byte first), shifting the accumulator left and
OR-ing in each newly read bit, as transcribed in specSlotValue. -/
theorem claim2_hash_follows_spec (hr hcnt : Nat) (f : BloomFilter) (d t_hash : List Nat)
    (hbuild : BloomFilter.build hr hcnt = BuildResult.ok f)
    (hd : d.length = 64)
    (hhash : f.hash d = some t_hash) :
    t_hash.length = hcnt ∧ ∀ i, i < hcnt → t_hash.getD i 0 = specSlotValue d hr i := by
  obtain ⟨hbits, hhc, hhr, hcap, hr64⟩ := build_ok_inv hr hcnt f hbuild
  have hhash2 : hashSlots d hr hcnt 0 = some t_hash := by
    have h0 := hhash
    unfold BloomFilter.hash at h0
    rw [hhr, hhc] at h0
    exact h0
  obtain ⟨hlen, hall⟩ := hashSlots_inv d hr hcnt 0 t_hash hhash2
  refine ⟨hlen, ?_⟩
  intro i hi
  obtain ⟨p, hp⟩ := hall i hi
  rw [Nat.zero_add] at hp
  have hspec := hashSlotAux_spec d hr (i * hr) 0 0 (t_hash.getD i 0) p hp (by omega) (by omega)
  unfold specSlotValue
  exact hspec

theorem runOp_params (f f2 : BloomFilter) (op : FilterOp) (h : runOp f op = some f2) :
    f2.hasher_count = f.hasher_count ∧ f2.hasher_range_in_bits = f.hasher_range_in_bits ∧
      f2.bits.length = f.bits.length := by
  cases op with
  | add d => exact add_params f f2 d h
  | query d =>
    simp only [runOp] at h
    split at h
    · simp only [Option.some_inj] at h
      rw [← h]
      exact ⟨rfl, rfl, rfl⟩
    · exact absurd h (by simp)

theorem runOps_params (ops : List FilterOp) : ∀ f f2 : BloomFilter,
    runOps f ops = some f2 →
    f2.hasher_count = f.hasher_count ∧ f2.hasher_range_in_bits = f.hasher_range_in_bits ∧
      f2.bits.length = f.bits.length := by
  induction ops with
  | nil =>
    intro f f2 h
    simp only [runOps, Option.some_inj] at h
    rw [h]
    exact ⟨rfl, rfl, rfl⟩
  | cons op rest ih =>
    intro f f2 h
    simp only [runOps] at h
    split at h
    next f1 h1 =>
      obtain ⟨a1, a2, a3⟩ := ih f1 f2 h
      obtain ⟨b1, b2, b3⟩ := runOp_params f f1 op h1
      exact ⟨by omega, by omega, by omega⟩
    next => exact absurd h (by simp)

/-- Claim C3: membership query contract.  For every filter reachable from a
validly constructed one by any sequence of add and is_present operations
(so in particular for filters with set bits), is_present computes the slot
indices via hash and answers MAYBE_PRESENT exactly when the bit at every one
of those indices is true, and DEFINITELY_ABSENT exactly when the bit at some
index is false. -/
theorem claim3_is_present_contract (hr hcnt : Nat) (f0 f : BloomFilter)
    (ops : List FilterOp) (d t_hash : List Nat)
    (hbuild : BloomFilter.build hr hcnt = BuildResult.ok f0)
    (hreach : runOps f0 ops = some f)
    (hd : d.length = 64)
    (hhash : f.hash d = some t_hash) :
    (f.is_present d = some BloomCheckResult.Maybe ↔ ∀ i ∈ t_hash, f.bits.getD i false = true)
    ∧ (f.is_present d = some BloomCheckResult.No ↔ ∃ i ∈ t_hash, f.bits.getD i false = false) := by
  obtain ⟨hbits0, hhc0, hhr0, hcap, hr64⟩ := build_ok_inv hr hcnt f0 hbuild
  obtain ⟨rc, rr, rlen⟩ := runOps_params ops f0 f hreach
  have hblen : f.bits.length = 2 ^ hr := by
    rw [rlen, hbits0, List.length_replicate]
  have hfr : f.hasher_range_in_bits = hr := by rw [rr, hhr0]
  have hmem : ∀ i ∈ t_hash, i < f.bits.length := by
    intro i hi
    have h0 := hhash
    unfold BloomFilter.hash at h0
    rw [hfr] at h0
    have := hashSlots_mem_lt d hr f.hasher_count (by omega) 0 t_hash h0 i hi
    omega
  have hip : f.is_present d =
      some (if t_hash.all (fun i => f.bits.getD i false) then BloomCheckResult.Maybe
            else BloomCheckResult.No) := by
    unfold BloomFilter.is_present
    rw [hhash]
    exact checkBits_spec t_hash f.bits hmem
  rcases hall : t_hash.all (fun i => f.bits.getD i false) with _ | _
  · rw [hall] at hip
    simp only [if_neg Bool.false_ne_true] at hip
    obtain ⟨w, hw, hwf⟩ := List.all_eq_false.mp hall
    constructor
    · constructor
      · intro hm
        rw [hip] at hm
        exact absurd hm (by simp)
      · intro hforall
        exact absurd (hforall w hw) (by rw [Bool.not_eq_true] at hwf; rw [hwf]; simp)
    · constructor
      · intro _
        exact ⟨w, hw, by rwa [Bool.not_eq_true] at hwf⟩
      · intro _
        exact hip
  · rw [hall] at hip
    simp only [if_pos rfl] at hip
    have hforall := List.all_eq_true.mp hall
    constructor
    · exact ⟨fun _ => fun i hi => hforall i hi, fun _ => hip⟩
    · constructor
      · intro hno
        rw [hip] at hno
        exact absurd hno (by simp)
      · intro hex
        obtain ⟨w, hw, hwf⟩ := hex
        have := hforall w hw
        rw [this] at hwf
        exact absurd hwf (by simp)

/-- Claim C4 counterexample: with hasher_count = 2 ^ 32 (a legal usize), the
cast to u32 inside the capacity check truncates it to 0, so build succeeds
although index_bits * hasher_count = 2 ^ 32 is far above 512; the claimed
equivalence between the capacity error and the untruncated product fails. -/
theorem claim4_counterexample :
    BloomFilter.build 1 4294967296 =
      BuildResult.ok (BloomFilter.mk (List.replicate 2 false) 4294967296 1)
    ∧ 512 < 1 * 4294967296 := by
  constructor
  · decide
  · omega

/-- Claim C4 as amended: for u32/usize inputs whose checked product
index_bits * (hasher_count mod 2 ^ 32) does not overflow u32, build returns
the capacity error exactly when that truncated product exceeds 512, the
capacity error is the only error build returns, and when the product is
within budget and the bit-array size fits in usize, build succeeds. -/
theorem claim4_amended_capacity (hr hcnt : Nat)
    (hhr : hr < U32_MOD) (hhcnt : hcnt < USIZE_MOD)
    (hnoflow : hr * (hcnt % U32_MOD) < U32_MOD) :
    (BloomFilter.build hr hcnt = BuildResult.err capacityMsg
      ↔ FULL_HASH_BYTES < hr * (hcnt % U32_MOD))
    ∧ (∀ s, BloomFilter.build hr hcnt = BuildResult.err s → s = capacityMsg)
    ∧ (hr * (hcnt % U32_MOD) ≤ FULL_HASH_BYTES → 2 ^ hr < USIZE_MOD →
        ∃ f, BloomFilter.build hr hcnt = BuildResult.ok f) := by
  unfold BloomFilter.build
  split_ifs with h1 h2 h3
  · omega
  · refine ⟨⟨fun _ => h2, fun _ => rfl⟩, fun s hs => ?_, fun hle _ => absurd hle (by omega)⟩
    injection hs with h
    exact h.symm
  · exact ⟨⟨fun hpanic => absurd hpanic (by simp), fun hgt => absurd hgt (by omega)⟩,
      fun s hs => absurd hs (by simp),
      fun _ hpow => absurd h3 (by omega)⟩
  · exact ⟨⟨fun hok => absurd hok (by simp), fun hgt => absurd hgt (by omega)⟩,
      fun s hs => absurd hs (by simp),
      fun _ _ => ⟨_, rfl⟩⟩

/-- Claim C5 counterexample: at index_bits = 64, hasher_count = 1 the product
64 is within the 512-bit budget, yet build does not return a filter with a
bit array of length 2 ^ 64: computing 2_usize.pow(64) overflows usize, which
panics in debug mode (and in release mode wraps to a zero-length array). -/
theorem claim5_counterexample :
    BloomFilter.build 64 1 = BuildResult.panic ∧ 64 * 1 ≤ 512 := by
  constructor
  · decide
  · omega

/-- Claim C5 as amended: for index_bits < 64 (so the bit-array length
2 ^ index_bits fits in usize) and index_bits * hasher_count at most 512,
build succeeds and returns the filter whose bit array is exactly
2 ^ index_bits entries of false and which stores both parameters
unchanged. -/
theorem claim5_amended_construction (hr hcnt : Nat)
    (hr64 : hr < 64) (hcap : hr * hcnt ≤ FULL_HASH_BYTES) :
    BloomFilter.build hr hcnt =
      BuildResult.ok (BloomFilter.mk (List.replicate (2 ^ hr) false) hcnt hr) := by
  have hF : FULL_HASH_BYTES = 512 := rfl
  have hU : U32_MOD = 4294967296 := by norm_num [U32_MOD]
  have hS : USIZE_MOD = 18446744073709551616 := by norm_num [USIZE_MOD]
  have hple : hr * (hcnt % U32_MOD) ≤ hr * hcnt :=
    Nat.mul_le_mul_left hr (Nat.mod_le hcnt U32_MOD)
  have hpow : 2 ^ hr < USIZE_MOD := by
    rw [hS]
    calc 2 ^ hr ≤ 2 ^ 63 := Nat.pow_le_pow_right (by omega) (by omega)
    _ < 18446744073709551616 := by norm_num
  unfold BloomFilter.build
  rw [if_neg (by omega), if_neg (by omega), if_neg (by omega)]

/-- Claim C6: index range safety.  For a validly constructed filter, every
index a completed hash produces is below 2 ^ index_bits and within the
bounds of the bit array; consequently neither the expect inside is_present
nor the BitVec::set inside add can hit its failure branch. -/
theorem claim6_index_range (hr hcnt : Nat) (f : BloomFilter) (d t_hash : List Nat)
    (hbuild : BloomFilter.build hr hcnt = BuildResult.ok f)
    (hhash : f.hash d = some t_hash) :
    (∀ i ∈ t_hash, i < 2 ^ hr ∧ i < f.bits.length)
    ∧ (f.is_present d).isSome ∧ (f.add d).isSome := by
  obtain ⟨hbits, hhc, hhr, hcap, hr64⟩ := build_ok_inv hr hcnt f hbuild
  have hblen : f.bits.length = 2 ^ hr := by rw [hbits, List.length_replicate]
  have hlt : ∀ i ∈ t_hash, i < 2 ^ hr := by
    have h0 := hhash
    unfold BloomFilter.hash at h0
    rw [hhr] at h0
    exact fun i hi => hashSlots_mem_lt d hr f.hasher_count (by omega) 0 t_hash h0 i hi
  have hmem : ∀ i ∈ t_hash, i < f.bits.length := by
    intro i hi
    have := hlt i hi
    omega
  refine ⟨fun i hi => ⟨hlt i hi, hmem i hi⟩, ?_, ?_⟩
  · unfold BloomFilter.is_present
    rw [hhash]
    exact checkBits_isSome t_hash f.bits hmem
  · obtain ⟨bits2, hb2⟩ := Option.isSome_iff_exists.mp (setBits_isSome t_hash f.bits hmem)
    have hadd : f.add d = some (BloomFilter.mk bits2 f.hasher_count f.hasher_range_in_bits) := by
      unfold BloomFilter.add
      rw [hhash]
      show (match setBits f.bits t_hash with
        | some bits => some (BloomFilter.mk bits f.hasher_count f.hasher_range_in_bits)
        | none => none) = _
      rw [hb2]
    rw [hadd]
    rfl

/-- Claim C7: idempotence of insertion.  Adding the same key twice in
succession leaves the bit array exactly as after a single add. -/
theorem claim7_add_idempotent (hr hcnt : Nat) (f f1 f2 : BloomFilter) (d : List Nat)
    (hbuild : BloomFilter.build hr hcnt = BuildResult.ok f)
    (h1 : f.add d = some f1) (h2 : f1.add d = some f2) :
    f2.bits = f1.bits := by
  obtain ⟨t_hash, hh, hs, hcc, hrr⟩ := add_inv f f1 d h1
  obtain ⟨t2, hh2, hs2, hcc2, hrr2⟩ := add_inv f1 f2 d h2
  have ht2 : t2 = t_hash := by
    rw [hash_congr f f1 d hcc hrr, hh] at hh2
    exact (Option.some_inj.mp hh2).symm
  rw [ht2] at hs2
  have hlen1 : f1.bits.length = f.bits.length := setBits_length t_hash f.bits f1.bits hs
  have hmem1 : ∀ i ∈ t_hash, i < f1.bits.length := by
    intro i hi
    have := setBits_inbounds t_hash f.bits f1.bits hs i hi
    omega
  have htrue1 : ∀ i ∈ t_hash, f1.bits.getD i false = true :=
    setBits_sets t_hash f.bits f1.bits hs
  have hid := setBits_id t_hash f1.bits htrue1 hmem1
  rw [hid] at hs2
  exact Option.some_inj.mp hs2.symm

/-- Claim C8: bits never revert.  At any state reachable from a validly
constructed filter by a sequence of add and is_present operations, one more
operation never turns a true bit false, never changes the bit-array length
and never modifies hasher_count or index_bits. -/
theorem claim8_bits_never_revert (hr hcnt : Nat) (f0 f1 f2 : BloomFilter)
    (ops : List FilterOp) (op : FilterOp)
    (hbuild : BloomFilter.build hr hcnt = BuildResult.ok f0)
    (hreach : runOps f0 ops = some f1)
    (hstep : runOp f1 op = some f2) :
    (∀ j, f1.bits.getD j false = true → f2.bits.getD j false = true)
    ∧ f2.bits.length = f1.bits.length
    ∧ f2.hasher_count = f1.hasher_count
    ∧ f2.hasher_range_in_bits = f1.hasher_range_in_bits := by
  cases op with
  | add d =>
    simp only [runOp] at hstep
    obtain ⟨hc2, hr2, hlen2⟩ := add_params f1 f2 d hstep
    exact ⟨add_mono f1 f2 d hstep, hlen2, hc2, hr2⟩
  | query d =>
    simp only [runOp] at hstep
    split at hstep
    · simp only [Option.some_inj] at hstep
      rw [← hstep]
      exact ⟨fun _ h => h, rfl, rfl, rfl⟩
    · exact absurd hstep (by simp)

/-- Claim C9: no positivity validation.  build accepts hasher_count = 0 and
index_bits = 0 without error, and any filter whose hasher_count is 0 derives
an empty index list, so is_present answers MAYBE_PRESENT for every key even
before any insertion. -/
theorem claim9_zero_hashers (hr hcnt : Nat) (f : BloomFilter) :
    (∃ f0, BloomFilter.build 0 0 = BuildResult.ok f0)
    ∧ (BloomFilter.build hr hcnt = BuildResult.ok f → f.hasher_count = 0 →
        ∀ d, f.hash d = some [] ∧ f.is_present d = some BloomCheckResult.Maybe) := by
  constructor
  · exact ⟨BloomFilter.mk (List.replicate 1 false) 0 0, by decide⟩
  · intro hbuild hzero d
    have hh : f.hash d = some [] := by
      unfold BloomFilter.hash
      rw [hzero]
      rfl
    refine ⟨hh, ?_⟩
    unfold BloomFilter.is_present
    rw [hh]
    rfl

/-! ### Helpers for the legacy byte-array implementation -/

theorem and_or_absorb (a b : Nat) : (a ||| b) &&& b = b := by
  apply Nat.eq_of_testBit_eq
  intro i
  rw [Nat.testBit_and, Nat.testBit_or]
  cases a.testBit i <;> cases b.testBit i <;> rfl

theorem contain_mono (a b x : Nat) (h : a &&& x = x) : (a ||| b) &&& x = x := by
  apply Nat.eq_of_testBit_eq
  intro i
  have hi : (a &&& x).testBit i = x.testBit i := by rw [h]
  rw [Nat.testBit_and] at hi
  rw [Nat.testBit_and, Nat.testBit_or]
  cases ha : a.testBit i <;> cases hx : x.testBit i <;> cases hb : b.testBit i <;> simp_all

theorem orInto_length (th : List Nat) : ∀ bytes i bytes2,
    Legacy.orInto bytes th i = some bytes2 → bytes2.length = bytes.length := by
  induction th with
  | nil =>
    intro bytes i bytes2 h
    simp only [Legacy.orInto, Option.some_inj] at h
    rw [h]
  | cons hb rest ih =>
    intro bytes i bytes2 h
    simp only [Legacy.orInto] at h
    split at h
    · have := ih (bytes.set i (bytes.getD i 0 ||| hb)) (i + 1) bytes2 h
      rw [this, List.length_set]
    · exact absurd h (by simp)

theorem orInto_inbounds (th : List Nat) : ∀ bytes i bytes2,
    Legacy.orInto bytes th i = some bytes2 → ∀ k, k < th.length → i + k < bytes.length := by
  induction th with
  | nil => intro bytes i bytes2 h k hk; simp at hk
  | cons hb rest ih =>
    intro bytes i bytes2 h k hk
    simp only [Legacy.orInto] at h
    split at h
    next hilt =>
      cases k with
      | zero => omega
      | succ k0 =>
        have := ih (bytes.set i (bytes.getD i 0 ||| hb)) (i + 1) bytes2 h k0
          (by simpa using Nat.lt_of_succ_lt_succ (by simpa using hk))
        rw [List.length_set] at this
        omega
    next => exact absurd h (by simp)

theorem orInto_mono (th : List Nat) : ∀ bytes i bytes2,
    Legacy.orInto bytes th i = some bytes2 →
    ∀ j x, bytes.getD j 0 &&& x = x → bytes2.getD j 0 &&& x = x := by
  induction th with
  | nil =>
    intro bytes i bytes2 h j x hx
    simp only [Legacy.orInto, Option.some_inj] at h
    rw [← h]
    exact hx
  | cons hb rest ih =>
    intro bytes i bytes2 h j x hx
    simp only [Legacy.orInto] at h
    split at h
    next hilt =>
      refine ih (bytes.set i (bytes.getD i 0 ||| hb)) (i + 1) bytes2 h j x ?_
      by_cases hij : i = j
      · rw [← hij] at hx ⊢
        rw [getD_set_self bytes i (bytes.getD i 0 ||| hb) 0 hilt]
        exact contain_mono (bytes.getD i 0) hb x hx
      · rw [getD_set_ne bytes i j (bytes.getD i 0 ||| hb) 0 hij]
        exact hx
    next => exact absurd h (by simp)

theorem orInto_contains (th : List Nat) : ∀ bytes i bytes2,
    Legacy.orInto bytes th i = some bytes2 →
    ∀ k, k < th.length → bytes2.getD (i + k) 0 &&& th.getD k 0 = th.getD k 0 := by
  induction th with
  | nil => intro bytes i bytes2 h k hk; simp at hk
  | cons hb rest ih =>
    intro bytes i bytes2 h k hk
    simp only [Legacy.orInto] at h
    split at h
    next hilt =>
      cases k with
      | zero =>
        have hset : (bytes.set i (bytes.getD i 0 ||| hb)).getD i 0 &&& hb = hb := by
          rw [getD_set_self bytes i (bytes.getD i 0 ||| hb) 0 hilt]
          exact and_or_absorb (bytes.getD i 0) hb
        have := orInto_mono rest (bytes.set i (bytes.getD i 0 ||| hb)) (i + 1) bytes2 h i hb hset
        simpa using this
      | succ k0 =>
        have := ih (bytes.set i (bytes.getD i 0 ||| hb)) (i + 1) bytes2 h k0
          (by simpa using Nat.lt_of_succ_lt_succ (by simpa using hk))
        have harg : i + 1 + k0 = i + (k0 + 1) := by omega
        rw [harg] at this
        simpa using this
    next => exact absurd h (by simp)

theorem containsCheck_maybe (th : List Nat) : ∀ bytes i,
    (∀ k, k < th.length → i + k < bytes.length ∧
      bytes.getD (i + k) 0 &&& th.getD k 0 = th.getD k 0) →
    Legacy.containsCheck bytes th i = some BloomCheckResult.Maybe := by
  induction th with
  | nil => intro bytes i h; rfl
  | cons hb rest ih =>
    intro bytes i h
    have h0 := h 0 (by simp)
    simp only [Nat.add_zero, List.getD_cons_zero] at h0
    simp only [Legacy.containsCheck, if_pos h0.1]
    rw [if_neg (by rw [ne_eq, h0.2]; simp)]
    refine ih bytes (i + 1) ?_
    intro k hk
    have := h (k + 1) (by simpa using Nat.succ_lt_succ hk)
    have harg : i + (k + 1) = i + 1 + k := by omega
    rw [harg] at this
    simpa using this

theorem legacy_hashInner_length (fh : List Nat) (bc : Nat) : ∀ fuel bi computed fhi c2 fhi2,
    Legacy.hashInner fh bc fuel bi computed fhi = some (c2, fhi2) →
    c2.length = computed.length := by
  intro fuel
  induction fuel with
  | zero =>
    intro bi computed fhi c2 fhi2 h
    simp only [Legacy.hashInner, Option.some_inj, Prod.mk.injEq] at h
    rw [← h.1]
  | succ n ih =>
    intro bi computed fhi c2 fhi2 h
    simp only [Legacy.hashInner] at h
    split at h
    · have := ih (bi + 1) _ (fhi + 1) c2 fhi2 h
      rw [this, List.length_set]
    · exact absurd h (by simp)

theorem legacy_hashOuter_length (fh : List Nat) (bc : Nat) : ∀ n computed fhi c2,
    Legacy.hashOuter fh bc n computed fhi = some c2 → c2.length = computed.length := by
  intro n
  induction n with
  | zero =>
    intro computed fhi c2 h
    simp only [Legacy.hashOuter, Option.some_inj] at h
    rw [h]
  | succ n ih =>
    intro computed fhi c2 h
    simp only [Legacy.hashOuter] at h
    split at h
    next c1 fhi1 hinner =>
      have h1 := legacy_hashInner_length fh bc bc 0 computed fhi c1 fhi1 hinner
      have h2 := ih c1 fhi1 c2 h
      rw [h2, h1]
    next => exact absurd h (by simp)

theorem legacy_hash_length (f : Legacy.BloomFilter) (d th : List Nat)
    (h : f.hash d = some th) : th.length = f.byte_count := by
  unfold Legacy.BloomFilter.hash at h
  have := legacy_hashOuter_length d f.byte_count f.hasher_count
    (List.replicate f.byte_count 0) 0 th h
  rw [this, List.length_replicate]

theorem legacy_add_inv (f f2 : Legacy.BloomFilter) (d : List Nat)
    (h : f.add d = some f2) :
    ∃ th, f.hash d = some th ∧ Legacy.orInto f.bytes th 0 = some f2.bytes ∧
      f2.hasher_count = f.hasher_count ∧ f2.byte_count = f.byte_count := by
  unfold Legacy.BloomFilter.add at h
  split at h
  next th hh =>
    split at h
    next bytes2 hs =>
      simp only [Option.some_inj] at h
      refine ⟨th, hh, ?_, ?_, ?_⟩
      · rw [← h]; exact hs
      · rw [← h]
      · rw [← h]
    next => exact absurd h (by simp)
  next => exact absurd h (by simp)

theorem legacy_hash_congr (f f2 : Legacy.BloomFilter) (d : List Nat)
    (hc : f2.hasher_count = f.hasher_count)
    (hb : f2.byte_count = f.byte_count) :
    f2.hash d = f.hash d := by
  unfold Legacy.BloomFilter.hash
  rw [hc, hb]

theorem legacy_add_params (f f2 : Legacy.BloomFilter) (d : List Nat)
    (h : f.add d = some f2) :
    f2.hasher_count = f.hasher_count ∧ f2.byte_count = f.byte_count ∧
      f2.bytes.length = f.bytes.length := by
  obtain ⟨th, -, hs, hc, hb⟩ := legacy_add_inv f f2 d h
  exact ⟨hc, hb, orInto_length th f.bytes 0 f2.bytes hs⟩

theorem legacy_add_mono (f f2 : Legacy.BloomFilter) (d : List Nat)
    (h : f.add d = some f2) :
    ∀ j x, f.bytes.getD j 0 &&& x = x → f2.bytes.getD j 0 &&& x = x := by
  obtain ⟨th, -, hs, -, -⟩ := legacy_add_inv f f2 d h
  exact orInto_mono th f.bytes 0 f2.bytes hs

theorem legacy_addAll_params (ds : List (List Nat)) : ∀ f f2 : Legacy.BloomFilter,
    f.addAll ds = some f2 →
    f2.hasher_count = f.hasher_count ∧ f2.byte_count = f.byte_count ∧
      f2.bytes.length = f.bytes.length := by
  induction ds with
  | nil =>
    intro f f2 h
    simp only [Legacy.BloomFilter.addAll, Option.some_inj] at h
    rw [h]
    exact ⟨rfl, rfl, rfl⟩
  | cons d ds ih =>
    intro f f2 h
    simp only [Legacy.BloomFilter.addAll] at h
    split at h
    next f1 ha =>
      obtain ⟨h1, h2, h3⟩ := ih f1 f2 h
      obtain ⟨g1, g2, g3⟩ := legacy_add_params f f1 d ha
      exact ⟨by omega, by omega, by omega⟩
    next => exact absurd h (by simp)

theorem legacy_addAll_mono (ds : List (List Nat)) : ∀ f f2 : Legacy.BloomFilter,
    f.addAll ds = some f2 →
    ∀ j x, f.bytes.getD j 0 &&& x = x → f2.bytes.getD j 0 &&& x = x := by
  induction ds with
  | nil =>
    intro f f2 h j x hx
    simp only [Legacy.BloomFilter.addAll, Option.some_inj] at h
    rw [← h]
    exact hx
  | cons d ds ih =>
    intro f f2 h j x hx
    simp only [Legacy.BloomFilter.addAll] at h
    split at h
    next f1 ha =>
      exact ih f1 f2 h j x (legacy_add_mono f f1 d ha j x hx)
    next => exact absurd h (by simp)

/-- Claim C10: the historical byte-array variant also has no false
negatives.  For every successfully built legacy filter and every key
(represented by its digest d), after adding the key and any further
insertions before or after, is_present answers Maybe: add ORs the hash bytes
of the key into the state and is_present checks containment against the same
deterministic hash, so the self-referential fold defect cannot produce a
false negative. -/
theorem claim10_legacy_no_false_negatives (bc hcnt : Nat)
    (f0 f1 f2 f3 : Legacy.BloomFilter)
    (d : List Nat) (pre post : List (List Nat))
    (hbuild : Legacy.BloomFilter.build bc hcnt = BuildResult.ok f0)
    (hpre : f0.addAll pre = some f1)
    (hadd : f1.add d = some f2)
    (hpost : f2.addAll post = some f3) :
    f3.is_present d = some BloomCheckResult.Maybe := by
  obtain ⟨th, hh1, hs, hcc, hbb⟩ := legacy_add_inv f1 f2 d hadd
  obtain ⟨pc, pb, plen⟩ := legacy_addAll_params post f2 f3 hpost
  have hhash3 : f3.hash d = some th := by
    rw [legacy_hash_congr f1 f3 d (by omega) (by omega), hh1]
  have hlen12 : f2.bytes.length = f1.bytes.length :=
    orInto_length th f1.bytes 0 f2.bytes hs
  have hcontain : ∀ k, k < th.length →
      0 + k < f3.bytes.length ∧ f3.bytes.getD (0 + k) 0 &&& th.getD k 0 = th.getD k 0 := by
    intro k hk
    constructor
    · have := orInto_inbounds th f1.bytes 0 f2.bytes hs k hk
      omega
    · exact legacy_addAll_mono post f2 f3 hpost (0 + k) (th.getD k 0)
        (orInto_contains th f1.bytes 0 f2.bytes hs k hk)
  unfold Legacy.BloomFilter.is_present
  rw [hhash3]
  exact containsCheck_maybe th f3.bytes 0 hcontain

/-! ### Concrete witnesses -/

theorem claim1_witness :
    (BloomFilter.mk (true :: List.replicate 15 false) 2 4).is_present (List.replicate 64 0)
      = some BloomCheckResult.Maybe :=
  claim1_no_false_negatives 4 2
    (BloomFilter.mk (List.replicate 16 false) 2 4)
    (BloomFilter.mk (List.replicate 16 false) 2 4)
    (BloomFilter.mk (true :: List.replicate 15 false) 2 4)
    (BloomFilter.mk (true :: List.replicate 15 false) 2 4)
    (List.replicate 64 0) [] []
    (by decide) rfl (by decide) rfl

theorem claim2_witness :
    [0, 0].getD 0 0 = specSlotValue (List.replicate 64 0) 4 0 ∧ ([0, 0] : List Nat).length = 2 := by
  have h := claim2_hash_follows_spec 4 2 (BloomFilter.mk (List.replicate 16 false) 2 4)
    (List.replicate 64 0) [0, 0] (by decide) (by decide) (by decide)
  exact ⟨h.2 0 (by omega), h.1⟩

theorem claim3_witness :
    ((BloomFilter.mk (true :: List.replicate 15 false) 2 4).is_present (List.replicate 64 0)
      = some BloomCheckResult.Maybe)
    ∧ ((BloomFilter.mk (true :: List.replicate 15 false) 2 4).is_present (List.replicate 64 255)
      = some BloomCheckResult.No) := by
  constructor
  · have h := claim3_is_present_contract 4 2
      (BloomFilter.mk (List.replicate 16 false) 2 4)
      (BloomFilter.mk (true :: List.replicate 15 false) 2 4)
      [FilterOp.add (List.replicate 64 0)]
      (List.replicate 64 0) [0, 0] (by decide) (by decide) (by decide) (by decide)
    exact h.1.mpr (by decide)
  · have h := claim3_is_present_contract 4 2
      (BloomFilter.mk (List.replicate 16 false) 2 4)
      (BloomFilter.mk (true :: List.replicate 15 false) 2 4)
      [FilterOp.add (List.replicate 64 0)]
      (List.replicate 64 255) [15, 15] (by decide) (by decide) (by decide) (by decide)
    exact h.2.mpr ⟨15, by decide, by decide⟩

theorem claim4_witness :
    BloomFilter.build 100 6 = BuildResult.err capacityMsg
    ∧ BloomFilter.build 4 6 ≠ BuildResult.err capacityMsg := by
  constructor
  · exact (claim4_amended_capacity 100 6 (by decide) (by decide) (by decide)).1.mpr (by decide)
  · obtain ⟨f, hf⟩ :=
      (claim4_amended_capacity 4 6 (by decide) (by decide) (by decide)).2.2 (by decide) (by decide)
    rw [hf]
    simp

theorem claim5_witness :
    BloomFilter.build 4 6 = BuildResult.ok (BloomFilter.mk (List.replicate 16 false) 6 4) :=
  claim5_amended_construction 4 6 (by omega) (by decide)

theorem claim6_witness :
    ((BloomFilter.mk (List.replicate 16 false) 2 4).is_present (List.replicate 64 0)).isSome
    ∧ ((BloomFilter.mk (List.replicate 16 false) 2 4).add (List.replicate 64 0)).isSome := by
  have h := claim6_index_range 4 2 (BloomFilter.mk (List.replicate 16 false) 2 4)
    (List.replicate 64 0) [0, 0] (by decide) (by decide)
  exact h.2

theorem claim7_witness :
    (BloomFilter.mk (true :: List.replicate 15 false) 2 4).bits
      = (BloomFilter.mk (true :: List.replicate 15 false) 2 4).bits :=
  claim7_add_idempotent 4 2 (BloomFilter.mk (List.replicate 16 false) 2 4)
    (BloomFilter.mk (true :: List.replicate 15 false) 2 4)
    (BloomFilter.mk (true :: List.replicate 15 false) 2 4)
    (List.replicate 64 0) (by decide) (by decide) (by decide)

theorem claim8_witness :
    (BloomFilter.mk (true :: List.replicate 15 false) 2 4).bits.length
      = (BloomFilter.mk (List.replicate 16 false) 2 4).bits.length
    ∧ (BloomFilter.mk (true :: List.replicate 15 false) 2 4).hasher_count
      = (BloomFilter.mk (List.replicate 16 false) 2 4).hasher_count := by
  have h := claim8_bits_never_revert 4 2
    (BloomFilter.mk (List.replicate 16 false) 2 4)
    (BloomFilter.mk (List.replicate 16 false) 2 4)
    (BloomFilter.mk (true :: List.replicate 15 false) 2 4)
    [] (FilterOp.add (List.replicate 64 0))
    (by decide) rfl (by decide)
  exact ⟨h.2.1, h.2.2.1⟩

theorem claim9_witness :
    (BloomFilter.mk [false] 0 0).is_present (List.replicate 64 0)
      = some BloomCheckResult.Maybe := by
  have h := claim9_zero_hashers 0 0 (BloomFilter.mk [false] 0 0)
  exact (h.2 (by decide) rfl (List.replicate 64 0)).2

theorem claim10_witness :
    (Legacy.BloomFilter.mk (List.replicate 2 0) 1 2).is_present (List.replicate 64 0)
      = some BloomCheckResult.Maybe :=
  claim10_legacy_no_false_negatives 2 1
    (Legacy.BloomFilter.mk (List.replicate 2 0) 1 2)
    (Legacy.BloomFilter.mk (List.replicate 2 0) 1 2)
    (Legacy.BloomFilter.mk (List.replicate 2 0) 1 2)
    (Legacy.BloomFilter.mk (List.replicate 2 0) 1 2)
    (List.replicate 64 0) [] []
    (by decide) rfl (by decide) rfl
